import Mathlib

/-!
Verification of the Citation-Source Verification Engine found in
`frontend/src/components/LibrarySourceModal.jsx`.

Strings are modelled as `List Char` (JS strings are arrays of code units;
all inputs of interest here are Cyrillic/ASCII text).  JS `toLowerCase` is
modelled on the ASCII and Cyrillic ranges, which covers the alphabet the
engine's tokenizer recognises.  Fallible scanning loops are modelled with
explicit fuel equal to their JS iteration bounds.
-/

namespace CitationChecker

abbrev Str := List Char

/-- Lower-casing of a single character, restricted to ASCII `A`-`Z` and
Cyrillic `А`-`Я`, `Ё` (the alphabets the engine manipulates); other
characters are left unchanged, as `toLowerCase` leaves them in the inputs
the engine sees. -/

def charLower (c : Char) : Char :=
  if 'A' ≤ c ∧ c ≤ 'Z' then Char.ofNat (c.toNat + 32)
  else if 'А' ≤ c ∧ c ≤ 'Я' then Char.ofNat (c.toNat + 32)
  else if c = 'Ё' then 'ё'
  else c

/-- Model of JS `String.prototype.toLowerCase`. -/

def jsToLower (s : Str) : Str := s.map charLower

/-- The character class `[а-яё]` of the keyword-extraction regex. -/

def isCyrLower (c : Char) : Bool := ('а' ≤ c ∧ c ≤ 'я') ∨ c = 'ё'

/-- The regex class `\d`. -/

def isDigitCh (c : Char) : Bool := '0' ≤ c ∧ c ≤ '9'

/-- The word `w` occurs in `s` starting at offset `i`. -/

def occursAt (w s : Str) (i : Nat) : Prop :=
  i + w.length ≤ s.length ∧ (s.drop i).take w.length = w

instance (w s : Str) (i : Nat) : Decidable (occursAt w s i) := by
  unfold occursAt; infer_instance

/-- Boolean version of `occursAt`. -/

def occursAtB (w s : Str) (i : Nat) : Bool :=
  decide (occursAt w s i)

/-- One step of the JS `indexOf` scan: try offsets `i, i+1, ...` while fuel
lasts, returning the first offset where `w` occurs in `s`. -/

def indexOfFromAux (s w : Str) : Nat → Nat → Option Nat
  | _, 0 => none
  | i, fuel + 1 => if occursAtB w s i then some i else indexOfFromAux s w (i + 1) fuel

/-- Model of JS `text.indexOf(word, start)` (result `none` models `-1`). -/

def indexOfFrom (s w : Str) (start : Nat) : Option Nat :=
  indexOfFromAux s w start (s.length + 1 - start)

/-- Model of JS `text.includes(word)`. -/

def includesStr (s w : Str) : Bool := (indexOfFrom s w 0).isSome

/-! ### Keyword Extractor (`extractKeywordsFromContext`) -/

/-- Tokenizer for the global regex match `/[а-яё]{4,}/g`: collects the maximal
runs of `[а-яё]` characters.  `cur` is the run being built, reversed. -/

def cyrRunsAux : List Char → List Char → List Str
  | [], cur => if cur.isEmpty then [] else [cur.reverse]
  | c :: cs, cur =>
    if isCyrLower c then cyrRunsAux cs (c :: cur)
    else if cur.isEmpty then cyrRunsAux cs [] else cur.reverse :: cyrRunsAux cs []

/-- Maximal runs of `[а-яё]` characters of a string. -/

def cyrRuns (s : Str) : List Str := cyrRunsAux s []

/-- Model of `text.toLowerCase().match(/[а-яё]{4,}/g) || []`: the maximal Cyrillic
runs of the lowercased text that have length at least 4. -/

def tokensOf (s : Str) : List Str :=
  (cyrRuns (jsToLower s)).filter (fun w => 4 ≤ w.length)

/-- The fixed stop-word set of `extractKeywordsFromContext` (a JS `Set`, so
the duplicate entry collapses; we keep the literal list, membership is what
matters). -/

def stopWords : List Str :=
  (["и", "в", "на", "по", "с", "из", "для", "что", "как", "это", "то",
    "же", "все", "его", "их", "от", "о", "у", "к", "за", "так", "но",
    "а", "или", "бы", "ли", "же", "ну", "вот", "не", "ни", "да", "нет"].map
    String.toList)

/-- Model of `[...new Set(keywords)]`: deduplication preserving first-seen order.
`seen` accumulates the values already emitted. -/

def dedupFirstAux (seen : List Str) : List Str → List Str
  | [] => []
  | x :: xs =>
    if x ∈ seen then dedupFirstAux seen xs
    else x :: dedupFirstAux (x :: seen) xs

def dedupFirst (l : List Str) : List Str := dedupFirstAux [] l

/-- Translation of `extractKeywordsFromContext` from the source.  The argument is `Option`
to model an absent (`undefined`/`null`) argument; JS `!text` is also true
for the empty string, hence the `isEmpty` test. -/

def extractKeywordsFromContext (text : Option Str) : List Str :=
  match text with
  | none => []
  | some t =>
    if t.isEmpty then []
    else
      let words := tokensOf t
      let keywords := words.filter (fun w => ¬ w ∈ stopWords)
      (dedupFirst keywords).take 10

/-- Spec-side description for the refinement claim: the first 10 distinct
tokens, in first-seen order, of the raw length-≥-4 Cyrillic tokenization of
the lowercased text, with no stop-word filtering at all. -/

def extractKeywordsSpecTenDistinct (t : Str) : List Str :=
  (dedupFirst (tokensOf t)).take 10

/-! ### Keyword Matcher (`findKeywordMatches`, `findAllPositions`) -/

/-- The `while (index !== -1 && count < 100)` loop of `findAllPositions`:
repeated forward scan restarting at `index + 1`, with the remaining
iteration budget as fuel. -/

def findAllPositionsAux (s w : Str) : Nat → Nat → List Nat
  | _, 0 => []
  | start, fuel + 1 =>
    match indexOfFrom s w start with
    | none => []
    | some i => i :: findAllPositionsAux s w (i + 1) fuel

/-- Translation of `findAllPositions` from the source: starting offsets of `w` in `s`,
capped at 100. -/

def findAllPositions (s w : Str) : List Nat := findAllPositionsAux s w 0 100

structure KeywordMatch where
  keyword : Str
  positions : List Nat
deriving DecidableEq

/-- Translation of `findKeywordMatches` from the source: keeps the keywords contained in
the lowercased content, with all their scan positions. -/

def findKeywordMatches (keywords : List Str) (sourceContent : Str) : List KeywordMatch :=
  let sourceLower := jsToLower sourceContent
  keywords.filterMap (fun k =>
    if includesStr sourceLower k then
      some ⟨k, findAllPositions sourceLower k⟩
    else none)

/-- All occurrence offsets of `w` in `s` that are ≥ `start`, ascending. -/

def occListFrom (s w : Str) (start : Nat) : List Nat :=
  (List.range (s.length + 1)).filter (fun i => decide (start ≤ i) && occursAtB w s i)

/-- All occurrence offsets of `w` in `s`, ascending. -/

def occList (s w : Str) : List Nat :=
  (List.range (s.length + 1)).filter (fun i => occursAtB w s i)

/-- Case-insensitive occurrence of `w` in `content` at offset `i`. -/

def occursCI (w content : Str) (i : Nat) : Prop :=
  occursAt (jsToLower w) (jsToLower content) i

instance (w content : Str) (i : Nat) : Decidable (occursCI w content i) := by
  unfold occursCI; infer_instance

/-! ### Confidence Scorer (`calculateConfidence`) -/

/-- Translation of `calculateConfidence` from the source.  The JS ratio `foundCount /
totalCount` is modelled as an exact rational; for the engine's operand
range (keyword counts) the IEEE-double comparison agrees with the exact
one. -/

def calculateConfidence (foundCount totalCount : Nat) : Nat :=
  if totalCount = 0 then 0
  else
    let matchRatio : ℚ := (foundCount : ℚ) / (totalCount : ℚ)
    if matchRatio > 7/10 then 90
    else if matchRatio > 1/2 then 75
    else if matchRatio > 3/10 then 60
    else if matchRatio > 1/5 then 40
    else 20

/-! ### Source-Title Scrubber (inside `checkCitationInSource`) -/

/-- The character class of the escape `word.replace(/[.*+?^${}()|[\]\\]/g,
'\\$&')`.  The braces are written via their code points. -/

def metachars : List Char :=
  ['.', '*', '+', '?', '^', '$', Char.ofNat 123, Char.ofNat 125,
   '(', ')', '|', '[', ']', '\\']

/-- The escaping step: every regex metacharacter is preceded by a
backslash. -/

def escapeRegex : Str → Str
  | [] => []
  | c :: w => (if c ∈ metachars then ['\\', c] else [c]) ++ escapeRegex w

/-- Model of `new RegExp(pattern)` for the literal patterns the scrubber
builds: parses a pattern into the literal character sequence it matches.
A dangling backslash or a bare metacharacter is a construction failure
(`none`), which the source's `catch` turns into skipping the word. -/

def parseLiteralPattern : Str → Option Str
  | [] => some []
  | c :: rest =>
    if c = '\\' then
      match rest with
      | [] => none
      | d :: rest' => (parseLiteralPattern rest').map (d :: ·)
    else if c ∈ metachars then none
    else (parseLiteralPattern rest).map (c :: ·)

/-- One-pass global case-insensitive removal of the literal `w`
(`content.replace(regex, '')` with flags `gi`): find the first
case-insensitive occurrence, drop it, continue after it.  Fuel bounds the
number of removals; `content.length` suffices for non-empty `w`. -/

def removeAllCIAux (w : Str) : Nat → Str → Str
  | 0, content => content
  | fuel + 1, content =>
    match indexOfFrom (jsToLower content) (jsToLower w) 0 with
    | none => content
    | some i => content.take i ++ removeAllCIAux w fuel (content.drop (i + w.length))

def removeAllCI (content w : Str) : Str :=
  if w.isEmpty then content else removeAllCIAux w content.length content

/-- Model of `sourceTitle.split(' ').filter(w => w && w.length > 3)`. -/

def titleWords (title : Str) : List Str :=
  (title.splitOn ' ').filter (fun w => 3 < w.length)

/-- One word's removal with the `try`/`catch` of the source: a failed
pattern construction skips the word. -/

def tryRemoveWord (content w : Str) : Str :=
  match parseLiteralPattern (escapeRegex w) with
  | some lit => removeAllCI content lit
  | none => content

/-- The title-scrubbing loop of `checkCitationInSource`. -/

def scrubTitle (content title : Str) : Str :=
  (titleWords title).foldl tryRemoveWord content

/-! ### Snippet Locator (`findBestSnippet`) -/

/-- The ellipsis marker `'...'`. -/

def ellipsis : Str := ['.', '.', '.']

/-- Ascending numeric sort, modelling `positions.sort((a, b) => a - b)`.
On naturals the ascending rearrangement is unique, so insertion sort is an
exact model of the JS sort. -/

def insertAsc (x : Nat) : List Nat → List Nat
  | [] => [x]
  | y :: ys => if x ≤ y then x :: y :: ys else y :: insertAsc x ys

def sortAsc : List Nat → List Nat
  | [] => []
  | x :: xs => insertAsc x (sortAsc xs)

/-- The cluster-scan loop of `findBestSnippet`.  Arguments: remaining
positions, previous position, current cluster's start position, current
cluster size, best start, best end, max cluster size. -/

def clAux : List Nat → Nat → Nat → Nat → Nat → Nat → Nat → Nat × Nat
  | [], _, _, _, bs, be, _ => (bs, be)
  | p :: rest, prev, cs, cur, bs, be, mx =>
    if p - prev < 500 then
      if mx < cur + 1 then clAux rest p cs (cur + 1) cs p (cur + 1)
      else clAux rest p cs (cur + 1) bs be mx
    else clAux rest p p 1 bs be mx

/-- The loop `for (let i = 1; i < Math.min(positions.length, 100); i++)`
with its initial state, returning `(bestStart, bestEnd)`. -/

def findCluster : List Nat → Nat × Nat
  | [] => (0, 0)
  | p :: rest => clAux (rest.take 99) p p 1 p p 1

/-- Translation of `findBestSnippet` from the source. -/

def findBestSnippet (sourceContent : Str) (keywordMatches : List KeywordMatch) : Str :=
  if keywordMatches.isEmpty || sourceContent.isEmpty then
    sourceContent.take 300 ++ ellipsis
  else
    let positions := keywordMatches.flatMap (fun m => m.positions.take 10)
    if positions.isEmpty then sourceContent.take 300 ++ ellipsis
    else
      let sorted := sortAsc positions
      let best := findCluster sorted
      let snippetStart := best.1 - 150
      let snippetEnd := min sourceContent.length (best.2 + 150)
      let snippet := (sourceContent.take snippetEnd).drop snippetStart
      let s1 := if 0 < snippetStart then ellipsis ++ snippet else snippet
      if snippetEnd < sourceContent.length then s1 ++ ellipsis else s1

/-! ### Declarative characterization of the cluster selection -/

/-- Splits a position sequence into its maximal runs ("clusters") in which
consecutive positions differ by less than 500.  `cur` is the current run,
reversed. -/

def runsSplit : List Nat → Nat → List Nat → List (List Nat)
  | [], _, cur => [cur.reverse]
  | p :: rest, prev, cur =>
    if p - prev < 500 then runsSplit rest p (p :: cur)
    else cur.reverse :: runsSplit rest p [p]

/-- The clusters of a position list: maximal runs with gaps < 500. -/

def clusters : List Nat → List (List Nat)
  | [] => []
  | p :: rest => runsSplit rest p [p]

/-- The earliest cluster of maximal length (first-wins: no replacement on
equal size). -/

def pickBestCluster (rs : List (List Nat)) : List Nat :=
  rs.foldl (fun best r => if best.length < r.length then r else best) []

/-- Run metadata: `(start, last, size)`. -/

def metaOf (r : List Nat) : Nat × Nat × Nat := (r.headD 0, r.getLastD 0, r.length)

/-- Variant of `runsSplit` on metadata triples. -/

def runsMeta : List Nat → Nat → Nat × Nat × Nat → List (Nat × Nat × Nat)
  | [], _, m => [m]
  | p :: rest, prev, (s, l, n) =>
    if p - prev < 500 then runsMeta rest p (s, p, n + 1)
    else (s, l, n) :: runsMeta rest p (p, p, 1)

/-- First-wins maximal-size selection on metadata triples. -/

def chooseMeta : List (Nat × Nat × Nat) → Nat × Nat × Nat → Nat × Nat
  | [], (bs, be, _) => (bs, be)
  | (s, l, n) :: rest, (bs, be, mx) =>
    if mx < n then chooseMeta rest (s, l, n) else chooseMeta rest (bs, be, mx)

/-- Spec-side description of the snippet construction: the maximal-length
earliest cluster of the ascending flattened positions (at most 10 per
match, at most 100 in total), windowed by 150 characters on each side,
clamped, with ellipsis markers exactly on the truncated sides. -/

def snippetSpec (content : Str) (kmatches : List KeywordMatch) : Str :=
  let tps := (sortAsc (kmatches.flatMap (fun m => m.positions.take 10))).take 100
  let c := pickBestCluster (clusters tps)
  let s := c.headD 0 - 150
  let e := min content.length (c.getLastD 0 + 150)
  (if 0 < s then ellipsis else []) ++ ((content.take e).drop s) ++
    (if e < content.length then ellipsis else [])

/-! ### Data model and pair matching (`matchCitationsWithSources`) -/

structure LibraryMatch where
  source_id : Option Str
deriving DecidableEq

structure OnlineMetadata where
  title : Option Str
deriving DecidableEq

structure Citation where
  text : Str
  context : Option Str
  full_paragraph : Option Str
deriving DecidableEq

structure BibliographyEntry where
  text : Str
  online_metadata : Option OnlineMetadata
  library_match : Option LibraryMatch
deriving DecidableEq

/-- Model of `source.online_metadata || source.library_match` (objects are truthy). -/

def entryMeta (src : BibliographyEntry) : Option (OnlineMetadata ⊕ LibraryMatch) :=
  match src.online_metadata with
  | some om => some (Sum.inl om)
  | none => src.library_match.map Sum.inr

structure Pair where
  citation : Citation
  citation_number : Nat
  source : BibliographyEntry
  source_text : Str
  source_metadata : Option (OnlineMetadata ⊕ LibraryMatch)
deriving DecidableEq

/-- Model of `parseInt` on a digit run. -/

def digitsVal (ds : Str) : Nat :=
  ds.foldl (fun a c => 10 * a + (c.toNat - '0'.toNat)) 0

/-- Attempt of the regex `/\[(\d+)\]/` at offset `i`: an opening bracket,
a maximal non-empty digit run, a closing bracket. -/

def bracketMatchAt (t : Str) (i : Nat) : Option Nat :=
  match t.drop i with
  | '[' :: rest =>
    let ds := rest.takeWhile isDigitCh
    if ds.isEmpty then none
    else
      match (rest.drop ds.length).head? with
      | some c => if c = ']' then some (digitsVal ds) else none
      | none => none
  | _ => none

/-- Leftmost-match search of `/\[(\d+)\]/`. -/

def scanBracket (t : Str) : Nat → Nat → Option Nat
  | _, 0 => none
  | i, fuel + 1 =>
    match bracketMatchAt t i with
    | some n => some n
    | none => scanBracket t (i + 1) fuel

/-- Translation of `extractCitationNumber` from the source: `null` on empty text, else the
number of the first bracketed marker, if any. -/

def extractCitationNumber (text : Str) : Option Nat :=
  if text.isEmpty then none
  else scanBracket text 0 text.length

/-- One citation's pair construction inside `matchCitationsWithSources`. -/

def toPair (bib : List BibliographyEntry) (c : Citation) : Option Pair :=
  match extractCitationNumber c.text with
  | none => none
  | some n =>
    if 1 ≤ n then
      match bib[n - 1]? with
      | some src => some { citation := c, citation_number := n, source := src,
                           source_text := src.text, source_metadata := entryMeta src }
      | none => none
    else none

/-- Translation of `matchCitationsWithSources` from the source. -/

def matchCitationsWithSources (citations : List Citation)
    (bib : List BibliographyEntry) : List Pair :=
  citations.filterMap (toPair bib)

/-! ### Verification outcomes, `checkCitationInSource`,
`verifyCitationSourcePair`, `verifyAllCitations` -/

inductive VerificationOutcome where
  | notFound (reason : Str)
  | foundResult (confidence : Nat) (match_type : Str)
      (keyword_matches : List KeywordMatch) (best_snippet : Str)
      (total_keywords_found total_keywords_searched : Nat)
deriving DecidableEq

/-- The `found` tag of a `VerificationOutcome`. -/

def VerificationOutcome.foundFlag : VerificationOutcome → Bool
  | .notFound _ => false
  | .foundResult .. => true

/-- The `confidence` field (a *not-found* outcome carries `confidence: 0`
in the source). -/

def VerificationOutcome.confidence : VerificationOutcome → Nat
  | .notFound _ => 0
  | .foundResult c _ _ _ _ _ => c

/-- The `reason` field (only *not-found* outcomes carry one). -/

def VerificationOutcome.reason : VerificationOutcome → Option Str
  | .notFound r => some r
  | .foundResult .. => none

structure VerificationResult where
  citation_number : Nat
  citation_text : Str
  source_title : Str
  source_content : Option Str
  source_id : Option Str
  verification : VerificationOutcome
  has_source_content : Bool
deriving DecidableEq

def strNoSourceAccess : Str := "Нет доступа к тексту источника".toList

def strBadCitation : Str := "Некорректный текст цитаты".toList

def strNotFoundMain : Str :=
  "Ключевые слова цитаты не найдены в основном тексте источника".toList

def strNotFoundAny : Str := "Ключевые слова цитаты не найдены в источнике".toList

def strLibSourceDefault : Str := "Источник из библиотеки".toList

def strUnknownSource : Str := "Неизвестный источник".toList

def strNoText : Str := "Нет текста".toList

def strErrMark : Str := "Ошибка проверки: ".toList

def strTimeoutMark : Str := "Таймаут проверки пары ".toList

/-- The hard-coded exclusion list in the retry branch of
`checkCitationInSource`. -/

def businessWords : List Str :=
  (["бизнес", "планирование", "учебник", "вузов", "лопарева"].map String.toList)

/-- The *found* outcome construction of `checkCitationInSource` steps 4-5. -/

def mkFoundOutcome (keywords : List Str) (keywordMatches : List KeywordMatch)
    (searchableContent : Str) : VerificationOutcome :=
  .foundResult (min (calculateConfidence keywordMatches.length keywords.length) 100)
    "semantic".toList keywordMatches
    (findBestSnippet searchableContent keywordMatches)
    keywordMatches.length keywords.length

/-- Translation of `checkCitationInSource` from the source.  The JS guard
`!citationText || typeof citationText !== 'string'` reduces to the
empty-string test in this model. -/

def checkCitationInSource (citationText sourceContent sourceTitle : Str) :
    VerificationOutcome :=
  if sourceContent.isEmpty then .notFound strNoSourceAccess
  else if citationText.isEmpty then .notFound strBadCitation
  else
    let keywords := extractKeywordsFromContext (some citationText)
    let searchableContent := scrubTitle sourceContent sourceTitle
    let keywordMatches := findKeywordMatches keywords searchableContent
    if keywordMatches.isEmpty then
      let importantKeywords := keywords.filter (fun k => ¬ k ∈ businessWords)
      if ¬ importantKeywords.isEmpty then
        if (findKeywordMatches importantKeywords searchableContent).isEmpty then
          .notFound strNotFoundMain
        else mkFoundOutcome keywords keywordMatches searchableContent
      else .notFound strNotFoundAny
    else mkFoundOutcome keywords keywordMatches searchableContent

/-- JS `a || b` for an optional string `a` (empty string is falsy). -/

def jsOr (a : Option Str) (b : Str) : Str :=
  match a with
  | some s => if s.isEmpty then b else s
  | none => b

/-- JS truthiness of an optional string. -/

def truthyStr : Option Str → Option Str
  | some s => if s.isEmpty then none else some s
  | none => none

/-- Value of `source.library_match?.source_id` as a truthy value. -/

def libSid (src : BibliographyEntry) : Option Str :=
  truthyStr (src.library_match.bind (fun lm => lm.source_id))

/-- Value of `source.online_metadata?.title` as a truthy value. -/

def omTitle (src : BibliographyEntry) : Option Str :=
  truthyStr (src.online_metadata.bind (fun om => om.title))

/-- The observable behaviour of the content-store fetch
(`GET /api/library/sources/{id}/full-content`): a response with a
`success` flag, optional full content and title, or a thrown error
(network failure, HTTP error status, axios timeout). -/

inductive FetchResponse where
  | ok (success : Bool) (full_content : Option Str) (title : Option Str)
  | err
deriving DecidableEq

/-- Predicate: the fetch throws or reports failure. -/

def fetchFails : FetchResponse → Bool
  | .err => true
  | .ok success _ _ => !success

/-- Evidence-text resolution (`getCitationText`): first field among
`context`, `full_paragraph`, `text` that is non-blank and not a bare
bracket marker. -/

def isBracketOnly (s : Str) : Bool :=
  match s with
  | '[' :: rest =>
    decide ((rest.takeWhile isDigitCh) ≠ [] ∧
      rest = rest.takeWhile isDigitCh ++ [']'])
  | _ => false

def isWs (c : Char) : Bool := c = ' ' ∨ c = '\t' ∨ c = '\n' ∨ c = '\r'

def jsTrim (s : Str) : Str := ((s.dropWhile isWs).reverse.dropWhile isWs).reverse

def fieldOk (f : Str) : Bool := !(jsTrim f).isEmpty && !isBracketOnly (jsTrim f)

def pickField : List (Option Str) → Option Str
  | [] => none
  | none :: rest => pickField rest
  | some f :: rest => if fieldOk f then some f else pickField rest

def natDec (n : Nat) : Str := Nat.toDigits 10 n

def getCitationText (c : Citation) (n : Nat) : Str :=
  match pickField [c.context, c.full_paragraph, some c.text] with
  | some f => f
  | none => '[' :: (natDec n ++ [']'])

/-- Translation of `verifyCitationSourcePair` from the source, parameterized by the
content store's behaviour.  Returns `(content, title, id)` resolution
followed by `checkCitationInSource`; the outer `catch` (which returns
`null`) is modelled at the orchestrator level. -/

def verifyCitationSourcePair (fetch : Str → FetchResponse) (pair : Pair) :
    VerificationResult :=
  let full_citation_text := getCitationText pair.citation pair.citation_number
  let src := pair.source
  let resolved : Str × Str × Option Str :=
    match libSid src with
    | some sid =>
      (match fetch sid with
       | .ok true fc t =>
         (fc.getD [], jsOr t (jsOr (some (src.text.take 100)) strLibSourceDefault),
           some sid)
       | .ok false _ _ => ([], [], some sid)
       | .err => ([], [], some sid))
    | none =>
      match omTitle src with
      | some t => ([], t, none)
      | none => ([], jsOr (some (src.text.take 100)) strUnknownSource, none)
  { citation_number := pair.citation_number
    citation_text := full_citation_text
    source_title := resolved.2.1
    source_content := some resolved.1
    source_id := resolved.2.2
    verification := checkCitationInSource full_citation_text resolved.1 resolved.2.1
    has_source_content := decide (0 < resolved.1.length) }

/-- The error record pushed by the orchestrator's per-pair `catch`. -/

def errorRecord (pair : Pair) (msg : Str) : VerificationResult :=
  { citation_number := pair.citation_number
    citation_text := jsOr (some pair.citation.text) strNoText
    source_title := jsOr (some (pair.source.text.take 100)) strUnknownSource
    source_content := none
    source_id := none
    verification := .notFound (strErrMark ++ msg)
    has_source_content := false }

/-- The message of the per-pair timeout rejection. -/

def timeoutMsg (i total : Nat) : Str :=
  strTimeoutMark ++ natDec i ++ ['/'] ++ natDec total

/-- The observable settlement of `Promise.race([verificationPromise,
timeoutPromise])`: either `verifyCitationSourcePair` resolves (with a
result, or with `null` from its internal `catch`), or the timeout
rejects. -/

inductive RaceOutcome where
  | completed (result : Option VerificationResult)
  | timedOut
deriving DecidableEq

/-- One iteration of the orchestrator loop: a resolved `null` pushes
nothing (`if (result)`), a resolved result is pushed, a rejection is
caught and converted to an error record. -/

def processPair (total i : Nat) (pair : Pair) (out : RaceOutcome) :
    Option VerificationResult :=
  match out with
  | .completed r => r
  | .timedOut => some (errorRecord pair (timeoutMsg (i + 1) total))

/-- Translation of `verifyAllCitations` from the source: `none` models the early
`alert`-and-return when no pair is derivable. -/

def verifyAllCitations (citations : List Citation) (bib : List BibliographyEntry)
    (race : Nat → Pair → RaceOutcome) : Option (List VerificationResult) :=
  let pairs := matchCitationsWithSources citations bib
  if pairs.isEmpty then none
  else some (pairs.enum.filterMap (fun ip => processPair pairs.length ip.1 ip.2 (race ip.1 ip.2)))

/-! ### Claims about the pair matcher and the orchestrator -/

/-- Inhabitant used only as a `getD` default inside proofs; never reached. -/

def fallbackResult : VerificationResult :=
  { citation_number := 0, citation_text := [], source_title := [],
    source_content := none, source_id := none,
    verification := .notFound [], has_source_content := false }

def cexCitation : Citation :=
  { text := "[1]".toList, context := none, full_paragraph := none }

def cexBib : BibliographyEntry :=
  { text := "Источник".toList, online_metadata := none, library_match := none }

/-- A run in which `verifyCitationSourcePair` throws internally, is caught
by its own `catch`, and resolves with `null`. -/

def cexRace : Nat → Pair → RaceOutcome := fun _ _ => .completed none

/-- Witness for C9 at a concrete pair and an always-throwing fetch. -/

theorem indexOfFromAux_some {s w : Str} {start fuel i : Nat}
    (h : indexOfFromAux s w start fuel = some i) :
    occursAt w s i ∧ start ≤ i ∧ ∀ j, start ≤ j → j < i → ¬ occursAt w s j := by
  induction fuel generalizing start with
  | zero => simp [indexOfFromAux] at h
  | succ fuel ih =>
    unfold indexOfFromAux at h
    by_cases hocc : occursAtB w s start
    · simp [hocc] at h
      subst h
      refine ⟨of_decide_eq_true hocc, Nat.le_refl _, ?_⟩
      intro j hj hji
      omega
    · simp [hocc] at h
      obtain ⟨h1, h2, h3⟩ := ih h
      refine ⟨h1, by omega, ?_⟩
      intro j hj hji
      rcases Nat.eq_or_lt_of_le hj with rfl | hlt
      · intro hc
        exact hocc (decide_eq_true hc)
      · exact h3 j hlt hji

theorem indexOfFromAux_none {s w : Str} {start fuel : Nat}
    (h : indexOfFromAux s w start fuel = none) :
    ∀ j, start ≤ j → j < start + fuel → ¬ occursAt w s j := by
  induction fuel generalizing start with
  | zero => intro j h1 h2; omega
  | succ fuel ih =>
    unfold indexOfFromAux at h
    by_cases hocc : occursAtB w s start
    · simp [hocc] at h
    · simp [hocc] at h
      intro j hj hji
      rcases Nat.eq_or_lt_of_le hj with rfl | hlt
      · intro hc; exact hocc (decide_eq_true hc)
      · exact ih h j hlt (by omega)

theorem indexOfFrom_some {s w : Str} {start i : Nat}
    (h : indexOfFrom s w start = some i) :
    occursAt w s i ∧ start ≤ i ∧ ∀ j, start ≤ j → j < i → ¬ occursAt w s j :=
  indexOfFromAux_some h

theorem indexOfFrom_none {s w : Str} {start : Nat}
    (h : indexOfFrom s w start = none) :
    ∀ j, start ≤ j → ¬ occursAt w s j := by
  intro j hj hocc
  have hlen : j + w.length ≤ s.length := hocc.1
  by_cases hle : j < start + (s.length + 1 - start)
  · exact indexOfFromAux_none h j hj hle hocc
  · omega

theorem includesStr_iff {s w : Str} :
    includesStr s w = true ↔ ∃ i, occursAt w s i := by
  unfold includesStr
  constructor
  · intro h
    obtain ⟨i, hi⟩ := Option.isSome_iff_exists.mp h
    exact ⟨i, (indexOfFrom_some hi).1⟩
  · intro ⟨i, hi⟩
    cases hfind : indexOfFrom s w 0 with
    | none => exact absurd hi (indexOfFrom_none hfind i (Nat.zero_le _))
    | some j => simp [hfind]

theorem cyrRunsAux_mem {s : List Char} {cur : List Char} {w : Str}
    (hcur : ∀ c ∈ cur, isCyrLower c = true)
    (hw : w ∈ cyrRunsAux s cur) : ∀ c ∈ w, isCyrLower c = true := by
  induction s generalizing cur with
  | nil =>
    unfold cyrRunsAux at hw
    by_cases h : cur.isEmpty <;> simp [h] at hw
    subst hw
    intro c hc
    exact hcur c (List.mem_reverse.mp hc)
  | cons c cs ih =>
    unfold cyrRunsAux at hw
    by_cases h : isCyrLower c
    · simp only [h, if_true] at hw
      refine ih ?_ hw
      intro d hd
      rcases List.mem_cons.mp hd with hd | hd
      · subst hd; exact h
      · exact hcur d hd
    · simp only [h] at hw
      by_cases hc : cur.isEmpty
      · simp [hc] at hw
        exact ih (by intro d hd; simp at hd) hw
      · simp [hc] at hw
        rcases hw with hw | hw
        · subst hw
          intro d hd
          exact hcur d (List.mem_reverse.mp hd)
        · exact ih (by intro d hd; simp at hd) hw

theorem tokensOf_mem {s : Str} {w : Str} (hw : w ∈ tokensOf s) :
    4 ≤ w.length ∧ ∀ c ∈ w, isCyrLower c = true := by
  unfold tokensOf at hw
  obtain ⟨hmem, hlen⟩ := List.mem_filter.mp hw
  exact ⟨by simpa using hlen, cyrRunsAux_mem (by simp) hmem⟩

theorem dedupFirstAux_sublist (seen : List Str) (l : List Str) :
    (dedupFirstAux seen l).Sublist l := by
  induction l generalizing seen with
  | nil => simp [dedupFirstAux]
  | cons x xs ih =>
    unfold dedupFirstAux
    by_cases h : x ∈ seen
    · simp only [h, if_true]
      exact (ih seen).trans (List.sublist_cons_self x xs)
    · simp only [h, if_false]
      exact (ih (x :: seen)).cons₂ x

theorem dedupFirstAux_not_mem_seen (seen : List Str) (l : List Str) :
    ∀ w ∈ dedupFirstAux seen l, w ∉ seen := by
  induction l generalizing seen with
  | nil => simp [dedupFirstAux]
  | cons x xs ih =>
    unfold dedupFirstAux
    by_cases h : x ∈ seen
    · simp only [h, if_true]
      exact ih seen
    · simp only [h, if_false]
      intro w hw
      rcases hw with _ | hw
      · exact h
      · have := ih (x :: seen) w (by assumption)
        intro hc
        exact this (List.mem_cons_of_mem x hc)

theorem dedupFirstAux_nodup (seen : List Str) (l : List Str) :
    (dedupFirstAux seen l).Nodup := by
  induction l generalizing seen with
  | nil => simp [dedupFirstAux]
  | cons x xs ih =>
    unfold dedupFirstAux
    by_cases h : x ∈ seen
    · simp only [h, if_true]; exact ih seen
    · simp only [h, if_false]
      refine List.nodup_cons.mpr ⟨?_, ih (x :: seen)⟩
      intro hc
      exact dedupFirstAux_not_mem_seen (x :: seen) xs x hc (List.mem_cons_self x seen)

theorem dedupFirst_sublist (l : List Str) : (dedupFirst l).Sublist l :=
  dedupFirstAux_sublist [] l

theorem dedupFirst_nodup (l : List Str) : (dedupFirst l).Nodup :=
  dedupFirstAux_nodup [] l

theorem stopWords_short : ∀ w ∈ stopWords, w.length ≤ 3 := by decide

theorem extract_eq_filtered (t : Str) :
    extractKeywordsFromContext (some t) =
      (dedupFirst ((tokensOf t).filter (fun w => ¬ w ∈ stopWords))).take 10 := by
  unfold extractKeywordsFromContext
  by_cases h : t.isEmpty
  · have ht : t = [] := by cases t <;> simp_all
    subst ht
    simp [tokensOf, cyrRuns, cyrRunsAux, jsToLower, dedupFirst, dedupFirstAux]
  · simp [h]

/-- C10: the stop-word filter inside `extractKeywordsFromContext` removes
nothing — every stop word has length at most 3 while every token has length
at least 4 — so the function returns exactly the first 10 distinct tokens,
in first-seen order, of the length-≥-4 Cyrillic tokenization of the
lowercased text. -/
theorem claim_C10 :
    (∀ w ∈ stopWords, w.length ≤ 3) ∧
    (∀ (t : Str), ∀ w ∈ tokensOf t, 4 ≤ w.length) ∧
    (∀ t : Str, extractKeywordsFromContext (some t) = extractKeywordsSpecTenDistinct t) := by
  refine ⟨stopWords_short, fun t w hw => (tokensOf_mem hw).1, fun t => ?_⟩
  rw [extract_eq_filtered]
  unfold extractKeywordsSpecTenDistinct
  congr 1
  congr 1
  apply List.filter_eq_self.mpr
  intro w hw
  have h4 := (tokensOf_mem hw).1
  simp only [decide_eq_true_eq]
  intro hstop
  have := stopWords_short w hstop
  omega

/-- Witness for C10 at concrete inputs. -/
theorem claim_C10_witness :
    ("для".toList.length ≤ 3) ∧
    (extractKeywordsFromContext (some "Согласно исследованию экономика".toList) =
      extractKeywordsSpecTenDistinct "Согласно исследованию экономика".toList) :=
  ⟨claim_C10.1 "для".toList (by decide),
   claim_C10.2.2 "Согласно исследованию экономика".toList⟩

/-- C2: `extractKeywordsFromContext` returns at most 10 pairwise-distinct
keywords, each a lowercase Cyrillic token of length ≥ 4 outside the
stop-word set, in first-seen token order (a sublist of the token stream),
and an absent input yields the empty list. -/
theorem claim_C2 (text : Option Str) :
    (text = none → extractKeywordsFromContext text = []) ∧
    (extractKeywordsFromContext text).length ≤ 10 ∧
    (extractKeywordsFromContext text).Nodup ∧
    (∀ w ∈ extractKeywordsFromContext text,
      4 ≤ w.length ∧ (∀ c ∈ w, isCyrLower c = true) ∧ w ∉ stopWords) ∧
    (extractKeywordsFromContext text).Sublist (tokensOf (text.getD [])) := by
  cases text with
  | none =>
    refine ⟨fun _ => rfl, ?_, ?_, ?_, ?_⟩ <;> simp [extractKeywordsFromContext]
  | some t =>
    have heq := extract_eq_filtered t
    have hsub : (extractKeywordsFromContext (some t)).Sublist (tokensOf t) := by
      rw [heq]
      exact ((List.take_sublist _ _).trans (dedupFirst_sublist _)).trans
        (List.filter_sublist _)
    refine ⟨by simp, ?_, ?_, ?_, by simpa using hsub⟩
    · rw [heq]; exact List.length_take_le _ _
    · rw [heq]
      exact (dedupFirst_nodup _).sublist (List.take_sublist _ _)
    · intro w hw
      have htok : w ∈ tokensOf t := hsub.mem hw
      have hfil : w ∈ (tokensOf t).filter (fun w => ¬ w ∈ stopWords) := by
        have := hw
        rw [heq] at this
        exact ((List.take_sublist _ _).trans (dedupFirst_sublist _)).mem this
      obtain ⟨h4, hcyr⟩ := tokensOf_mem htok
      refine ⟨h4, hcyr, ?_⟩
      have := (List.mem_filter.mp hfil).2
      simpa using this

/-- Witness for C2 at a concrete context string. -/
theorem claim_C2_witness :
    (extractKeywordsFromContext none = []) ∧
    (4 ≤ "согласно".toList.length ∧
      (∀ c ∈ "согласно".toList, isCyrLower c = true) ∧
      "согласно".toList ∉ stopWords) :=
  ⟨(claim_C2 none).1 rfl,
   (claim_C2 (some "Согласно исследованию экономика".toList)).2.2.2.1
     "согласно".toList (by decide)⟩

theorem filter_range_cons {N i : Nat} {p q : Nat → Bool}
    (hiN : i < N) (hpi : p i = true) (hlt : ∀ j, j < i → p j = false)
    (hgt : ∀ j, i < j → p j = q j) (hq : ∀ j, j ≤ i → q j = false) :
    (List.range N).filter p = i :: (List.range N).filter q := by
  induction N with
  | zero => omega
  | succ N ih =>
    rw [List.range_succ, List.filter_append, List.filter_append]
    rcases Nat.lt_or_ge i N with hi | hi
    · rw [ih hi]
      have hpq : List.filter p [N] = List.filter q [N] := by
        simp only [List.filter_cons, List.filter_nil, hgt N hi]
      rw [hpq]
      simp
    · have hiN' : i = N := by omega
      subst hiN'
      have h1 : (List.range i).filter p = [] := by
        apply List.filter_eq_nil_iff.mpr
        intro j hj
        simp [hlt j (List.mem_range.mp hj)]
      have h2 : (List.range i).filter q = [] := by
        apply List.filter_eq_nil_iff.mpr
        intro j hj
        simp [hq j (Nat.le_of_lt (List.mem_range.mp hj))]
      simp [h1, h2, hpi, hq i (Nat.le_refl i)]

theorem occListFrom_eq_cons {s w : Str} {start i : Nat}
    (h : indexOfFrom s w start = some i) :
    occListFrom s w start = i :: occListFrom s w (i + 1) := by
  obtain ⟨hocc, hsi, hmin⟩ := indexOfFrom_some h
  unfold occListFrom
  apply filter_range_cons
  · have := hocc.1
    omega
  · simp [hsi, occursAtB, hocc]
  · intro j hj
    by_cases hsj : start ≤ j
    · simp [hsj, occursAtB, hmin j hsj hj]
    · simp [hsj]
  · intro j hj
    have h1 : decide (start ≤ j) = true := decide_eq_true (by omega)
    have h2 : decide (i + 1 ≤ j) = true := decide_eq_true (by omega)
    simp only [h1, h2]
  · intro j hj
    have h2 : decide (i + 1 ≤ j) = false := decide_eq_false (by omega)
    simp only [h2, Bool.false_and]

theorem occListFrom_eq_nil {s w : Str} {start : Nat}
    (h : indexOfFrom s w start = none) :
    occListFrom s w start = [] := by
  apply List.filter_eq_nil_iff.mpr
  intro j hj
  by_cases hsj : start ≤ j
  · simp [hsj, occursAtB, indexOfFrom_none h j hsj]
  · simp [hsj]

theorem findAllPositionsAux_eq_take (s w : Str) (start fuel : Nat) :
    findAllPositionsAux s w start fuel = (occListFrom s w start).take fuel := by
  induction fuel generalizing start with
  | zero => simp [findAllPositionsAux]
  | succ fuel ih =>
    unfold findAllPositionsAux
    cases hfind : indexOfFrom s w start with
    | none => rw [occListFrom_eq_nil hfind]; rfl
    | some i =>
      show i :: findAllPositionsAux s w (i + 1) fuel = _
      rw [occListFrom_eq_cons hfind, List.take_succ_cons, ih]

theorem occListFrom_zero (s w : Str) : occListFrom s w 0 = occList s w := by
  unfold occListFrom occList
  apply List.filter_congr
  intro i _
  simp

theorem findAllPositions_eq_take (s w : Str) :
    findAllPositions s w = (occList s w).take 100 := by
  rw [findAllPositions, findAllPositionsAux_eq_take, occListFrom_zero]

theorem occList_sorted (s w : Str) : (occList s w).Pairwise (· < ·) :=
  List.Pairwise.filter _ (List.pairwise_lt_range _)

theorem occList_mem {s w : Str} {i : Nat} :
    i ∈ occList s w ↔ occursAt w s i := by
  unfold occList
  rw [List.mem_filter]
  constructor
  · intro ⟨_, h⟩
    exact of_decide_eq_true h
  · intro h
    refine ⟨List.mem_range.mpr ?_, decide_eq_true h⟩
    have := h.1
    omega

/-- C8: `findKeywordMatches` returns an entry exactly for the (lowercase)
keywords that occur case-insensitively in the content; each entry's
positions are the ascending occurrence offsets of the keyword in the
lowercased content truncated to the first 100, hence ascending, genuine
offsets, at most 100 of them, and never the empty list. -/
theorem claim_C8 (keywords : List Str) (content : Str) :
    (∀ k ∈ keywords, jsToLower k = k →
      ((∃ m ∈ findKeywordMatches keywords content, m.keyword = k) ↔
        ∃ i, occursCI k content i)) ∧
    (∀ m ∈ findKeywordMatches keywords content,
      m.keyword ∈ keywords ∧
      m.positions = (occList (jsToLower content) m.keyword).take 100 ∧
      m.positions.Pairwise (· < ·) ∧
      (∀ p ∈ m.positions, occursAt m.keyword (jsToLower content) p) ∧
      m.positions.length ≤ 100 ∧
      m.positions ≠ []) := by
  constructor
  · intro k hk hlow
    constructor
    · intro ⟨m, hm, hkey⟩
      obtain ⟨k', hk', hf⟩ := List.mem_filterMap.mp hm
      by_cases hinc : includesStr (jsToLower content) k'
      · rw [if_pos hinc] at hf
        obtain rfl := Option.some.inj hf
        have hkk : k' = k := hkey
        subst hkk
        obtain ⟨i, hi⟩ := includesStr_iff.mp hinc
        exact ⟨i, by unfold occursCI; rwa [hlow]⟩
      · rw [if_neg hinc] at hf
        exact absurd hf (by simp)
    · intro ⟨i, hi⟩
      have hinc : includesStr (jsToLower content) k = true := by
        apply includesStr_iff.mpr
        exact ⟨i, by unfold occursCI at hi; rwa [hlow] at hi⟩
      refine ⟨⟨k, findAllPositions (jsToLower content) k⟩, ?_, rfl⟩
      apply List.mem_filterMap.mpr
      exact ⟨k, hk, by simp [hinc]⟩
  · intro m hm
    obtain ⟨k', hk', hf⟩ := List.mem_filterMap.mp hm
    by_cases hinc : includesStr (jsToLower content) k'
    · rw [if_pos hinc] at hf
      obtain rfl := Option.some.inj hf
      have heq : findAllPositions (jsToLower content) k' =
          (occList (jsToLower content) k').take 100 := findAllPositions_eq_take _ _
      refine ⟨hk', heq, ?_, ?_, ?_, ?_⟩
      · show (findAllPositions (jsToLower content) k').Pairwise (· < ·)
        rw [heq]
        exact (occList_sorted _ _).sublist (List.take_sublist _ _)
      · show ∀ p ∈ findAllPositions (jsToLower content) k',
          occursAt k' (jsToLower content) p
        intro p hp
        rw [heq] at hp
        exact occList_mem.mp ((List.take_sublist _ _).mem hp)
      · show (findAllPositions (jsToLower content) k').length ≤ 100
        rw [heq]
        exact List.length_take_le _ _
      · show findAllPositions (jsToLower content) k' ≠ []
        rw [heq]
        obtain ⟨i, hi⟩ := includesStr_iff.mp hinc
        have hmem : i ∈ occList (jsToLower content) k' := occList_mem.mpr hi
        have hne : occList (jsToLower content) k' ≠ [] := by
          intro hh
          rw [hh] at hmem
          exact absurd hmem (List.not_mem_nil i)
        intro hcon
        rcases List.take_eq_nil_iff.mp hcon with h | h
        · exact absurd h (by omega)
        · exact hne h
    · rw [if_neg hinc] at hf
      exact absurd hf (by simp)

/-- Witness for C8 at a concrete keyword list and content. -/
theorem claim_C8_witness :
    (∃ m ∈ findKeywordMatches ["тест".toList] "вот тест текст".toList,
      m.keyword = "тест".toList) ∧
    (∀ m ∈ findKeywordMatches ["тест".toList] "вот тест текст".toList,
      m.positions ≠ []) := by
  constructor
  · apply ((claim_C8 ["тест".toList] "вот тест текст".toList).1
      "тест".toList (by decide) (by decide)).mpr
    exact ⟨4, by decide⟩
  · intro m hm
    exact ((claim_C8 ["тест".toList] "вот тест текст".toList).2 m hm).2.2.2.2.2

/-- C4: `calculateConfidence` returns 0 when `totalCount = 0` and otherwise
maps the ratio by the fixed strict thresholds 0.7 / 0.5 / 0.3 / 0.2; its
range is exactly `{0, 20, 40, 60, 75, 90}`. -/
theorem claim_C4 :
    (∀ f t : Nat,
      (t = 0 → calculateConfidence f t = 0) ∧
      (t ≠ 0 →
        ((f : ℚ) / t > 7/10 → calculateConfidence f t = 90) ∧
        (1/2 < (f : ℚ) / t ∧ (f : ℚ) / t ≤ 7/10 → calculateConfidence f t = 75) ∧
        (3/10 < (f : ℚ) / t ∧ (f : ℚ) / t ≤ 1/2 → calculateConfidence f t = 60) ∧
        (1/5 < (f : ℚ) / t ∧ (f : ℚ) / t ≤ 3/10 → calculateConfidence f t = 40) ∧
        ((f : ℚ) / t ≤ 1/5 → calculateConfidence f t = 20)) ∧
      calculateConfidence f t ∈ ([0, 20, 40, 60, 75, 90] : List Nat)) ∧
    (∀ v ∈ ([0, 20, 40, 60, 75, 90] : List Nat),
      ∃ f t : Nat, calculateConfidence f t = v) := by
  constructor
  · intro f t
    refine ⟨?_, ?_, ?_⟩
    · intro ht
      simp [calculateConfidence, ht]
    · intro ht
      refine ⟨?_, ?_, ?_, ?_, ?_⟩ <;> intro h <;>
        simp only [calculateConfidence, if_neg ht] <;> split_ifs <;>
        first | rfl | (exfalso; rcases h with ⟨h1, h2⟩ | h1 <;> linarith) |
          (exfalso; linarith)
    · by_cases ht : t = 0
      · simp [calculateConfidence, ht]
      · simp only [calculateConfidence, if_neg ht]
        split_ifs <;> simp
  · intro v hv
    fin_cases hv
    · exact ⟨0, 0, by norm_num [calculateConfidence]⟩
    · exact ⟨1, 10, by norm_num [calculateConfidence]⟩
    · exact ⟨3, 10, by norm_num [calculateConfidence]⟩
    · exact ⟨5, 10, by norm_num [calculateConfidence]⟩
    · exact ⟨7, 10, by norm_num [calculateConfidence]⟩
    · exact ⟨9, 10, by norm_num [calculateConfidence]⟩

/-- Witness for C4 at concrete counts. -/
theorem claim_C4_witness :
    calculateConfidence 0 0 = 0 ∧
    calculateConfidence 7 10 = 75 ∧
    calculateConfidence 9 10 = 90 :=
  ⟨(claim_C4.1 0 0).1 rfl,
   ((claim_C4.1 7 10).2.1 (by norm_num)).2.1 (by norm_num),
   ((claim_C4.1 9 10).2.1 (by norm_num)).1 (by norm_num)⟩

theorem parse_escape (w : Str) : parseLiteralPattern (escapeRegex w) = some w := by
  induction w with
  | nil => rfl
  | cons c w ih =>
    by_cases hc : c ∈ metachars
    · simp only [escapeRegex, hc, if_true, List.cons_append, List.nil_append]
      simp [parseLiteralPattern, ih]
    · have hcb : c ≠ '\\' := by
        intro h
        subst h
        exact hc (by decide)
      simp only [escapeRegex, hc, if_false, List.cons_append, List.nil_append]
      unfold parseLiteralPattern
      rw [if_neg hcb, if_neg hc, ih]
      rfl

theorem tryRemoveWord_eq (content w : Str) :
    tryRemoveWord content w = removeAllCI content w := by
  unfold tryRemoveWord
  rw [parse_escape]

theorem jsToLower_length (s : Str) : (jsToLower s).length = s.length :=
  List.length_map s charLower

theorem removeAllCIAux_length_le (w : Str) (fuel : Nat) (content : Str) :
    (removeAllCIAux w fuel content).length ≤ content.length := by
  induction fuel generalizing content with
  | zero => simp [removeAllCIAux]
  | succ fuel ih =>
    unfold removeAllCIAux
    cases hfind : indexOfFrom (jsToLower content) (jsToLower w) 0 with
    | none => simp
    | some i =>
      simp only [List.length_append, List.length_take]
      have h1 := ih (content.drop (i + w.length))
      have h2 : (content.drop (i + w.length)).length = content.length - (i + w.length) :=
        List.length_drop _ _
      have h3 := (indexOfFrom_some hfind).1.1
      rw [jsToLower_length, jsToLower_length] at h3
      omega

theorem removeAllCI_no_occurrence {content w : Str}
    (h : ¬ ∃ i, occursCI w content i) : removeAllCI content w = content := by
  unfold removeAllCI
  by_cases hw : w.isEmpty
  · simp [hw]
  · simp only [hw, if_false]
    cases hlen : content.length with
    | zero => rfl
    | succ n =>
      unfold removeAllCIAux
      cases hfind : indexOfFrom (jsToLower content) (jsToLower w) 0 with
      | none => rfl
      | some i =>
        exact absurd ⟨i, (indexOfFrom_some hfind).1⟩ h

theorem removeAllCI_shrinks {content w : Str}
    (h : ∃ i, occursCI w content i) :
    (removeAllCI content w).length + w.length ≤ content.length := by
  by_cases hw : w.isEmpty
  · have : w = [] := by cases w <;> simp_all
    subst this
    simp [removeAllCI]
  · obtain ⟨i, hi⟩ := h
    have hocc : occursAt (jsToLower w) (jsToLower content) i := hi
    have hbound : i + w.length ≤ content.length := by
      have := hocc.1
      rwa [jsToLower_length, jsToLower_length] at this
    have hwpos : 0 < w.length := by
      cases w
      · simp at hw
      · simp
    have hne : w.isEmpty = false := by simpa using hw
    unfold removeAllCI
    rw [hne]
    simp only [Bool.false_eq_true, if_false]
    cases hlen : content.length with
    | zero => omega
    | succ n =>
      unfold removeAllCIAux
      cases hfind : indexOfFrom (jsToLower content) (jsToLower w) 0 with
      | none =>
        exact absurd hocc (indexOfFrom_none hfind i (Nat.zero_le i))
      | some j =>
        have hj := (indexOfFrom_some hfind).1
        have hjb : j + w.length ≤ content.length := by
          have := hj.1
          rwa [jsToLower_length, jsToLower_length] at this
        simp only [List.length_append, List.length_take]
        have h1 := removeAllCIAux_length_le w n (content.drop (j + w.length))
        have h2 : (content.drop (j + w.length)).length =
            content.length - (j + w.length) := List.length_drop _ _
        omega

theorem foldl_tryRemove (ws : List Str) (c : Str) :
    ws.foldl tryRemoveWord c = ws.foldl removeAllCI c := by
  induction ws generalizing c with
  | nil => rfl
  | cons w ws ih => simp [List.foldl_cons, tryRemoveWord_eq, ih]

theorem removeAllCI_nil (w : Str) : removeAllCI [] w = [] := by
  unfold removeAllCI
  by_cases hw : w.isEmpty
  · simp [hw]
  · simp [hw, removeAllCIAux]

/-- C6: title scrubbing is exception-free — escaped patterns always
construct (so the skip-on-failure branch never aborts the scrub) — it
removes each title word longer than 3 characters by one-pass
case-insensitive literal removal, leaves the content unchanged on an empty
title or empty content, and handles regex metacharacters such as in
`"C++ (2020)"` literally. -/
theorem claim_C6 :
    (∀ w : Str, parseLiteralPattern (escapeRegex w) = some w) ∧
    (∀ content : Str, scrubTitle content [] = content) ∧
    (∀ title : Str, scrubTitle [] title = []) ∧
    (∀ content title : Str,
      scrubTitle content title = (titleWords title).foldl removeAllCI content) ∧
    (∀ content w : Str, ¬ (∃ i, occursCI w content i) →
      removeAllCI content w = content) ∧
    (∀ content w : Str, (∃ i, occursCI w content i) →
      (removeAllCI content w).length + w.length ≤ content.length) ∧
    scrubTitle "ab(2020)cd".toList "C++ (2020)".toList = "abcd".toList := by
  refine ⟨parse_escape, ?_, ?_, ?_, ?_, ?_, ?_⟩
  · intro content
    rfl
  · intro title
    unfold scrubTitle
    generalize titleWords title = ws
    induction ws with
    | nil => rfl
    | cons w ws ih => simp [List.foldl_cons, tryRemoveWord_eq, removeAllCI_nil, ih]
  · intro content title
    exact foldl_tryRemove _ _
  · intro content w h
    exact removeAllCI_no_occurrence h
  · intro content w h
    exact removeAllCI_shrinks h
  · decide

/-- Witness for C6: a word with no occurrence leaves content unchanged; an
occurring word strictly shrinks it. -/
theorem claim_C6_witness :
    removeAllCI "abc".toList "слово".toList = "abc".toList ∧
    (removeAllCI "xABCy".toList "abc".toList).length + 3 ≤ 5 := by
  constructor
  · apply claim_C6.2.2.2.2.1
    intro ⟨i, hi⟩
    have h : includesStr (jsToLower "abc".toList) (jsToLower "слово".toList) = true :=
      includesStr_iff.mpr ⟨i, hi⟩
    exact absurd h (by decide)
  · exact claim_C6.2.2.2.2.2.1 "xABCy".toList "abc".toList ⟨1, by decide⟩

/-- C7: `findBestSnippet` is total (never throws); on an empty match list
or empty content it returns the first 300 characters of the content (the
whole content when shorter) followed by the ellipsis marker, and in every
case its result is no longer than `content.length + 2·150 + 2·|ellipsis|`. -/
theorem claim_C7 (content : Str) (kms : List KeywordMatch) :
    ((kms = [] ∨ content = []) →
      findBestSnippet content kms = content.take 300 ++ ellipsis) ∧
    (findBestSnippet content kms).length ≤
      content.length + 2 * 150 + 2 * ellipsis.length := by
  have hfall : ∀ h : kms.isEmpty || content.isEmpty,
      findBestSnippet content kms = content.take 300 ++ ellipsis := by
    intro h
    unfold findBestSnippet
    rw [if_pos h]
  have hellip : ellipsis.length = 3 := rfl
  have htake300 : (content.take 300).length ≤ content.length := by
    rw [List.length_take]; omega
  constructor
  · intro h
    apply hfall
    rcases h with h | h <;> simp [h]
  · by_cases hguard : (kms.isEmpty || content.isEmpty : Bool) = true
    · rw [hfall hguard, List.length_append]
      omega
    · unfold findBestSnippet
      rw [if_neg hguard]
      by_cases hpos : (kms.flatMap (fun m => m.positions.take 10)).isEmpty = true
      · rw [if_pos hpos, List.length_append]
        omega
      · rw [if_neg hpos]
        dsimp only
        have hsnip : ((content.take (min content.length
            ((findCluster (sortAsc (kms.flatMap (fun m => m.positions.take 10)))).2 + 150))).drop
            ((findCluster (sortAsc (kms.flatMap (fun m => m.positions.take 10)))).1 - 150)).length ≤
            content.length := by
          rw [List.length_drop, List.length_take]
          omega
        split_ifs <;> (try simp only [List.length_append]) <;> omega

/-- Witness for C7 at concrete inputs. -/
theorem claim_C7_witness :
    findBestSnippet "ab".toList [] = "ab".toList ++ ellipsis ∧
    findBestSnippet [] [⟨"x".toList, [0]⟩] = ellipsis :=
  ⟨(claim_C7 "ab".toList []).1 (Or.inl rfl),
   (claim_C7 [] [⟨"x".toList, [0]⟩]).1 (Or.inr rfl)⟩

theorem clAux_eq_chooseMeta (rest : List Nat) :
    ∀ (prev s cur bs0 be0 mx0 : Nat), 0 < cur →
    clAux rest prev s cur (if mx0 < cur then s else bs0)
      (if mx0 < cur then prev else be0) (max mx0 cur)
      = chooseMeta (runsMeta rest prev (s, prev, cur)) (bs0, be0, mx0) := by
  induction rest with
  | nil =>
    intro prev s cur bs0 be0 mx0 hcur
    simp only [clAux, runsMeta, chooseMeta]
    by_cases h : mx0 < cur
    · rw [if_pos h, if_pos h, if_pos h]
    · rw [if_neg h, if_neg h, if_neg h]
  | cons p rest ih =>
    intro prev s cur bs0 be0 mx0 hcur
    show (if p - prev < 500 then
        if max mx0 cur < cur + 1 then clAux rest p s (cur + 1) s p (cur + 1)
        else clAux rest p s (cur + 1) (if mx0 < cur then s else bs0)
          (if mx0 < cur then prev else be0) (max mx0 cur)
      else clAux rest p p 1 (if mx0 < cur then s else bs0)
          (if mx0 < cur then prev else be0) (max mx0 cur)) =
      chooseMeta (if p - prev < 500 then runsMeta rest p (s, p, cur + 1)
        else (s, prev, cur) :: runsMeta rest p (p, p, 1)) (bs0, be0, mx0)
    by_cases hgap : p - prev < 500
    · rw [if_pos hgap, if_pos hgap]
      by_cases hmx : mx0 ≤ cur
      · rw [if_pos (by omega : max mx0 cur < cur + 1)]
        have h := ih p s (cur + 1) bs0 be0 mx0 (by omega)
        rw [if_pos (by omega : mx0 < cur + 1),
            if_pos (by omega : mx0 < cur + 1)] at h
        rw [show max mx0 (cur + 1) = cur + 1 by omega] at h
        exact h
      · rw [if_neg (by omega : ¬ max mx0 cur < cur + 1)]
        have h := ih p s (cur + 1) bs0 be0 mx0 (by omega)
        rw [if_neg (by omega : ¬ mx0 < cur + 1),
            if_neg (by omega : ¬ mx0 < cur + 1)] at h
        rw [show max mx0 (cur + 1) = mx0 by omega] at h
        rw [if_neg (by omega : ¬ mx0 < cur),
            if_neg (by omega : ¬ mx0 < cur),
            show max mx0 cur = mx0 by omega]
        exact h
    · rw [if_neg hgap, if_neg hgap]
      show _ = if mx0 < cur then chooseMeta (runsMeta rest p (p, p, 1)) (s, prev, cur)
        else chooseMeta (runsMeta rest p (p, p, 1)) (bs0, be0, mx0)
      by_cases hmx : mx0 < cur
      · rw [if_pos hmx, if_pos hmx, if_pos hmx,
            show max mx0 cur = cur by omega]
        have h := ih p p 1 s prev cur Nat.one_pos
        rw [if_neg (by omega : ¬ cur < 1), if_neg (by omega : ¬ cur < 1),
            show max cur 1 = cur by omega] at h
        exact h
      · rw [if_neg hmx, if_neg hmx, if_neg hmx,
            show max mx0 cur = mx0 by omega]
        have h := ih p p 1 bs0 be0 mx0 Nat.one_pos
        rw [if_neg (by omega : ¬ mx0 < 1), if_neg (by omega : ¬ mx0 < 1),
            show max mx0 1 = mx0 by omega] at h
        exact h

theorem headD_reverse (l : List Nat) : l.reverse.headD 0 = l.getLastD 0 := by
  rw [List.headD_eq_head?, List.head?_reverse, List.getLastD_eq_getLast?]

theorem getLastD_reverse (l : List Nat) : l.reverse.getLastD 0 = l.headD 0 := by
  rw [List.getLastD_eq_getLast?, List.getLast?_reverse, List.headD_eq_head?]

theorem getLastD_cons_of_ne {l : List Nat} (a : Nat) (h : l ≠ []) :
    (a :: l).getLastD 0 = l.getLastD 0 := by
  cases l with
  | nil => exact absurd rfl h
  | cons b bs =>
    rw [List.getLastD_cons, List.getLastD_eq_getLast?, List.getLastD_eq_getLast?]
    cases hlast : (b :: bs).getLast? with
    | none => simp at hlast
    | some x => rfl

theorem runsMeta_eq_map (rest : List Nat) :
    ∀ (prev : Nat) (curRev : List Nat), curRev ≠ [] →
    runsMeta rest prev (curRev.getLastD 0, curRev.headD 0, curRev.length)
      = (runsSplit rest prev curRev).map metaOf := by
  induction rest with
  | nil =>
    intro prev curRev h
    simp only [runsMeta, runsSplit, List.map_cons, List.map_nil, metaOf]
    rw [headD_reverse, getLastD_reverse, List.length_reverse]
  | cons p rest ih =>
    intro prev curRev h
    show (if p - prev < 500 then
        runsMeta rest p (curRev.getLastD 0, p, curRev.length + 1)
      else (curRev.getLastD 0, curRev.headD 0, curRev.length) ::
        runsMeta rest p (p, p, 1)) =
      List.map metaOf (if p - prev < 500 then runsSplit rest p (p :: curRev)
        else curRev.reverse :: runsSplit rest p [p])
    by_cases hgap : p - prev < 500
    · rw [if_pos hgap, if_pos hgap]
      have h1 : (p :: curRev).getLastD 0 = curRev.getLastD 0 :=
        getLastD_cons_of_ne p h
      have h2 : (p :: curRev).headD 0 = p := rfl
      have h3 : (p :: curRev).length = curRev.length + 1 := rfl
      rw [← h1, ← h3]
      exact ih p (p :: curRev) (List.cons_ne_nil p curRev)
    · rw [if_neg hgap, if_neg hgap, List.map_cons]
      congr 1
      · unfold metaOf
        rw [headD_reverse, getLastD_reverse, List.length_reverse]
      · exact ih p [p] (List.cons_ne_nil p [])

theorem chooseMeta_eq_fold (rs : List (List Nat)) :
    ∀ (acc : List Nat),
    chooseMeta (rs.map metaOf) (acc.headD 0, acc.getLastD 0, acc.length)
      = ((rs.foldl (fun best r => if best.length < r.length then r else best) acc).headD 0,
         (rs.foldl (fun best r => if best.length < r.length then r else best) acc).getLastD 0) := by
  induction rs with
  | nil => intro acc; rfl
  | cons r rs ih =>
    intro acc
    show (if acc.length < r.length then
        chooseMeta (rs.map metaOf) (r.headD 0, r.getLastD 0, r.length)
      else chooseMeta (rs.map metaOf) (acc.headD 0, acc.getLastD 0, acc.length)) = _
    rw [List.foldl_cons]
    by_cases hlt : acc.length < r.length
    · rw [if_pos hlt, if_pos hlt]
      exact ih r
    · rw [if_neg hlt, if_neg hlt]
      exact ih acc

theorem insertAsc_length (x : Nat) (l : List Nat) :
    (insertAsc x l).length = l.length + 1 := by
  induction l with
  | nil => rfl
  | cons y ys ih =>
    unfold insertAsc
    by_cases h : x ≤ y
    · rw [if_pos h]; rfl
    · rw [if_neg h]
      simp [ih]

theorem sortAsc_length (l : List Nat) : (sortAsc l).length = l.length := by
  induction l with
  | nil => rfl
  | cons x xs ih =>
    unfold sortAsc
    rw [insertAsc_length, ih, List.length_cons]

theorem runsSplit_ne_nil (rest : List Nat) :
    ∀ prev cur, runsSplit rest prev cur ≠ [] := by
  induction rest with
  | nil => intro prev cur; simp [runsSplit]
  | cons p rs ih =>
    intro prev cur
    unfold runsSplit
    by_cases h : p - prev < 500
    · rw [if_pos h]; exact ih p (p :: cur)
    · rw [if_neg h]; simp

theorem runsSplit_forall_ne (rest : List Nat) :
    ∀ prev cur, cur ≠ [] → ∀ r ∈ runsSplit rest prev cur, r ≠ [] := by
  induction rest with
  | nil =>
    intro prev cur hcur r hr
    unfold runsSplit at hr
    rcases List.mem_singleton.mp hr with rfl
    simpa using hcur
  | cons p rs ih =>
    intro prev cur hcur r hr
    unfold runsSplit at hr
    by_cases h : p - prev < 500
    · rw [if_pos h] at hr
      exact ih p (p :: cur) (List.cons_ne_nil p cur) r hr
    · rw [if_neg h] at hr
      rcases List.mem_cons.mp hr with rfl | hr
      · simpa using hcur
      · exact ih p [p] (List.cons_ne_nil p []) r hr

theorem findCluster_eq_pick (p : Nat) (rest : List Nat) :
    findCluster (p :: rest) =
      ((pickBestCluster (clusters (p :: rest.take 99))).headD 0,
       (pickBestCluster (clusters (p :: rest.take 99))).getLastD 0) := by
  have hL := clAux_eq_chooseMeta (rest.take 99) p p 1 p p 0 Nat.one_pos
  rw [if_pos (by omega : (0:Nat) < 1), Nat.zero_max] at hL
  show clAux (rest.take 99) p p 1 p p 1 = _
  rw [hL]
  have hseed : ((p, p, 1) : Nat × Nat × Nat) =
      (([p] : List Nat).getLastD 0, ([p] : List Nat).headD 0, ([p] : List Nat).length) := rfl
  rw [hseed, runsMeta_eq_map (rest.take 99) p [p] (List.cons_ne_nil p [])]
  show chooseMeta ((clusters (p :: rest.take 99)).map metaOf) (p, p, 0) = _
  cases hcl : clusters (p :: rest.take 99) with
  | nil => exact absurd hcl (runsSplit_ne_nil _ _ _)
  | cons r1 rs =>
    have hr1 : r1 ≠ [] := by
      apply runsSplit_forall_ne (rest.take 99) p [p] (List.cons_ne_nil p [])
      show r1 ∈ runsSplit (rest.take 99) p [p]
      rw [show runsSplit (rest.take 99) p [p] = clusters (p :: rest.take 99) from rfl, hcl]
      exact List.mem_cons_self r1 rs
    have hr1len : 0 < r1.length := by
      cases r1 with
      | nil => exact absurd rfl hr1
      | cons a as => simp
    show (if 0 < r1.length then
        chooseMeta (rs.map metaOf) (r1.headD 0, r1.getLastD 0, r1.length)
      else chooseMeta (rs.map metaOf) (p, p, 0)) = _
    rw [if_pos hr1len, chooseMeta_eq_fold rs r1]
    unfold pickBestCluster
    rw [List.foldl_cons, if_pos (show ([] : List Nat).length < r1.length by simpa using hr1len)]

/-- C3: for a non-empty match list (with non-empty position lists, as
`findKeywordMatches` produces) and non-empty content, `findBestSnippet`
flattens the first 10 positions of each match, sorts them ascending, keeps
the first 100, picks the earliest maximal-length cluster with consecutive
gaps < 500, and returns the 150-character-context window around it, clamped
to the content with ellipses exactly on the truncated sides. -/
theorem claim_C3 (content : Str) (kms : List KeywordMatch)
    (h1 : kms ≠ []) (h2 : content ≠ [])
    (h3 : ∀ m ∈ kms, m.positions ≠ []) :
    findBestSnippet content kms = snippetSpec content kms := by
  have hkne : kms.isEmpty = false := by
    cases kms with
    | nil => exact absurd rfl h1
    | cons a as => rfl
  have hcne : content.isEmpty = false := by
    cases content with
    | nil => exact absurd rfl h2
    | cons a as => rfl
  have hflat : kms.flatMap (fun m => m.positions.take 10) ≠ [] := by
    cases kms with
    | nil => exact absurd rfl h1
    | cons m ms =>
      have hm := h3 m (List.mem_cons_self m ms)
      cases hq : m.positions with
      | nil => exact absurd hq hm
      | cons q qs => simp [List.flatMap_cons, hq]
  have hsortne : sortAsc (kms.flatMap (fun m => m.positions.take 10)) ≠ [] := by
    intro hc
    have hlen := sortAsc_length (kms.flatMap (fun m => m.positions.take 10))
    rw [hc] at hlen
    exact hflat (List.length_eq_zero.mp hlen.symm)
  have hg : ¬ ((kms.isEmpty || content.isEmpty) = true) := by
    rw [hkne, hcne]; simp
  have hp : ¬ ((kms.flatMap (fun m => m.positions.take 10)).isEmpty = true) := by
    cases hf : kms.flatMap (fun m => m.positions.take 10) with
    | nil => exact absurd hf hflat
    | cons a as => simp
  obtain ⟨p, rest, hs⟩ := List.exists_cons_of_ne_nil hsortne
  unfold findBestSnippet snippetSpec
  rw [if_neg hg]
  dsimp only
  rw [if_neg hp]
  rw [hs, findCluster_eq_pick]
  rw [show (100 : Nat) = 99 + 1 from rfl, List.take_succ_cons]
  dsimp only
  split_ifs <;> simp [List.append_assoc]

/-- Witness for C3 at a concrete content and match list. -/
theorem claim_C3_witness :
    findBestSnippet "0123456789".toList [⟨"x".toList, [2, 3]⟩] =
      snippetSpec "0123456789".toList [⟨"x".toList, [2, 3]⟩] :=
  claim_C3 "0123456789".toList [⟨"x".toList, [2, 3]⟩]
    (by decide) (by decide) (by decide)

theorem scanBracket_some {t : Str} {start fuel n : Nat}
    (h : scanBracket t start fuel = some n) :
    ∃ i, start ≤ i ∧ bracketMatchAt t i = some n ∧
      ∀ j, start ≤ j → j < i → bracketMatchAt t j = none := by
  induction fuel generalizing start with
  | zero => simp [scanBracket] at h
  | succ fuel ih =>
    unfold scanBracket at h
    cases hb : bracketMatchAt t start with
    | some m =>
      rw [hb] at h
      obtain rfl := Option.some.inj h
      exact ⟨start, Nat.le_refl _, hb, fun j h1 h2 => by omega⟩
    | none =>
      rw [hb] at h
      obtain ⟨i, h1, h2, h3⟩ := ih h
      refine ⟨i, by omega, h2, ?_⟩
      intro j hj hji
      rcases Nat.eq_or_lt_of_le hj with rfl | hlt
      · exact hb
      · exact h3 j hlt hji

theorem scanBracket_finds {t : Str} :
    ∀ {start fuel i n : Nat}, bracketMatchAt t i = some n → start ≤ i →
    i < start + fuel → (∀ j, start ≤ j → j < i → bracketMatchAt t j = none) →
    scanBracket t start fuel = some n := by
  intro start fuel
  induction fuel generalizing start with
  | zero => intro i n _ _ h _; omega
  | succ fuel ih =>
    intro i n hi hstart hfuel hmin
    unfold scanBracket
    rcases Nat.eq_or_lt_of_le hstart with rfl | hlt
    · rw [hi]
    · rw [hmin start (Nat.le_refl _) hlt]
      exact ih hi (by omega) (by omega) (fun j h1 h2 => hmin j (by omega) h2)

theorem bracketMatchAt_ge {t : Str} {i : Nat} (h : t.length ≤ i) :
    bracketMatchAt t i = none := by
  unfold bracketMatchAt
  rw [List.drop_eq_nil_of_le h]

theorem extractCitationNumber_iff (t : Str) (n : Nat) :
    extractCitationNumber t = some n ↔
      (t ≠ [] ∧ ∃ i, bracketMatchAt t i = some n ∧
        ∀ j, j < i → bracketMatchAt t j = none) := by
  unfold extractCitationNumber
  constructor
  · intro h
    by_cases he : t.isEmpty
    · rw [if_pos he] at h
      exact absurd h (by simp)
    · rw [if_neg he] at h
      obtain ⟨i, _, h2, h3⟩ := scanBracket_some h
      exact ⟨by cases t <;> simp_all, i, h2, fun j hj => h3 j (Nat.zero_le j) hj⟩
  · intro ⟨hne, i, hi, hmin⟩
    have he : t.isEmpty = false := by cases t <;> simp_all
    rw [if_neg (by simp [he])]
    have hilen : i < t.length := by
      by_contra hc
      rw [bracketMatchAt_ge (by omega)] at hi
      exact absurd hi (by simp)
    exact scanBracket_finds hi (Nat.zero_le i) (by omega)
      (fun j _ hj => hmin j hj)

theorem toPair_citation {bib : List BibliographyEntry} {c : Citation} {pr : Pair}
    (h : toPair bib c = some pr) : pr.citation = c := by
  unfold toPair at h
  cases hn : extractCitationNumber c.text with
  | none => rw [hn] at h; exact absurd h (by simp)
  | some n =>
    rw [hn] at h
    dsimp only at h
    by_cases h1 : 1 ≤ n
    · rw [if_pos h1] at h
      cases hsrc : bib[n - 1]? with
      | none => rw [hsrc] at h; exact absurd h (by simp)
      | some src =>
        rw [hsrc] at h
        obtain rfl := Option.some.inj h
        rfl
    · rw [if_neg h1] at h
      exact absurd h (by simp)

theorem toPair_some_of_valid (bib : List BibliographyEntry) (c : Citation)
    (n : Nat) (src : BibliographyEntry)
    (hn : extractCitationNumber c.text = some n) (h1 : 1 ≤ n)
    (hsrc : bib[n - 1]? = some src) :
    toPair bib c = some { citation := c, citation_number := n, source := src,
                          source_text := src.text,
                          source_metadata := entryMeta src } := by
  unfold toPair
  rw [hn]
  dsimp only
  rw [if_pos h1, hsrc]

theorem toPair_none_iff (bib : List BibliographyEntry) (c : Citation) :
    toPair bib c = none ↔
      (extractCitationNumber c.text = none ∨
        ∃ n, extractCitationNumber c.text = some n ∧
          (n = 0 ∨ bib.length ≤ n - 1)) := by
  unfold toPair
  cases hn : extractCitationNumber c.text with
  | none => simp
  | some n =>
    dsimp only
    constructor
    · intro h
      refine Or.inr ⟨n, rfl, ?_⟩
      by_cases h1 : 1 ≤ n
      · rw [if_pos h1] at h
        cases hsrc : bib[n - 1]? with
        | none =>
          exact Or.inr (List.getElem?_eq_none_iff.mp hsrc)
        | some src =>
          rw [hsrc] at h
          exact absurd h (by simp)
      · exact Or.inl (by omega)
    · intro h
      rcases h with h | ⟨m, hm, hoob⟩
      · exact absurd h (by simp)
      · have hnm : n = m := Option.some.inj hm
        subst hnm
        rcases hoob with hz | hoob
        · rw [if_neg (by omega : ¬ (1:Nat) ≤ n)]
        · by_cases h1 : 1 ≤ n
          · rw [if_pos h1, List.getElem?_eq_none hoob]
          · rw [if_neg h1]

/-- C5: a citation is paired with the bibliography entry at index `n - 1`
exactly when its first bracketed marker parses to `n` with `1 ≤ n` and
`n - 1` inside the bibliography; other citations yield no pair and hence no
entry of `verifyAllCitations`' result list. -/
theorem claim_C5 :
    (∀ (t : Str) (n : Nat), extractCitationNumber t = some n ↔
      (t ≠ [] ∧ ∃ i, bracketMatchAt t i = some n ∧
        ∀ j, j < i → bracketMatchAt t j = none)) ∧
    (∀ (bib : List BibliographyEntry) (c : Citation) (n : Nat)
      (src : BibliographyEntry),
      extractCitationNumber c.text = some n → 1 ≤ n → bib[n - 1]? = some src →
      ∃ pr, toPair bib c = some pr ∧ pr.citation = c ∧
        pr.citation_number = n ∧ pr.source = src) ∧
    (∀ (bib : List BibliographyEntry) (c : Citation),
      toPair bib c = none ↔
        (extractCitationNumber c.text = none ∨
          ∃ n, extractCitationNumber c.text = some n ∧
            (n = 0 ∨ bib.length ≤ n - 1))) ∧
    (∀ (citations : List Citation) (bib : List BibliographyEntry) (pr : Pair),
      pr ∈ matchCitationsWithSources citations bib ↔
        ∃ c ∈ citations, toPair bib c = some pr) ∧
    (∀ (citations : List Citation) (bib : List BibliographyEntry) (c : Citation),
      toPair bib c = none →
      (∀ pr ∈ matchCitationsWithSources citations bib, pr.citation ≠ c) ∧
      (∀ (race : Nat → Pair → RaceOutcome) (rs : List VerificationResult),
        verifyAllCitations citations bib race = some rs →
        ∀ r ∈ rs, ∃ i pr,
          (i, pr) ∈ (matchCitationsWithSources citations bib).enum ∧
          processPair (matchCitationsWithSources citations bib).length i pr
            (race i pr) = some r ∧
          pr.citation ≠ c)) := by
  refine ⟨extractCitationNumber_iff, ?_, toPair_none_iff, ?_, ?_⟩
  · intro bib c n src hn h1 hsrc
    exact ⟨_, toPair_some_of_valid bib c n src hn h1 hsrc, rfl, rfl, rfl⟩
  · intro citations bib pr
    exact List.mem_filterMap
  · intro citations bib c hc
    have hnopair : ∀ pr ∈ matchCitationsWithSources citations bib,
        pr.citation ≠ c := by
      intro pr hpr heq
      obtain ⟨c', _, hc'⟩ := List.mem_filterMap.mp hpr
      have : pr.citation = c' := toPair_citation hc'
      rw [heq] at this
      rw [← this] at hc'
      rw [hc'] at hc
      exact absurd hc (by simp)
    refine ⟨hnopair, ?_⟩
    intro race rs hrs r hr
    unfold verifyAllCitations at hrs
    by_cases hemp : (matchCitationsWithSources citations bib).isEmpty
    · rw [if_pos hemp] at hrs
      exact absurd hrs (by simp)
    · rw [if_neg hemp] at hrs
      obtain rfl := Option.some.inj hrs
      obtain ⟨⟨i, pr⟩, hip, hpp⟩ := List.mem_filterMap.mp hr
      refine ⟨i, pr, hip, hpp, ?_⟩
      apply hnopair
      have hget := List.mem_enum_iff_getElem?.mp hip
      obtain ⟨hlt, heq⟩ := List.getElem?_eq_some.mp hget
      have hlt' : i < (matchCitationsWithSources citations bib).length := hlt
      have heq' : (matchCitationsWithSources citations bib)[i] = pr := heq
      rw [← heq']
      exact List.getElem_mem hlt'

/-- Witness for C5 at a concrete citation list and bibliography. -/
theorem claim_C5_witness :
    extractCitationNumber "см. [2] там".toList = some 2 ∧
    toPair [⟨"a".toList, none, none⟩] ⟨"[5]".toList, none, none⟩ = none := by
  constructor
  · apply (claim_C5.1 "см. [2] там".toList 2).mpr
    refine ⟨by decide, 4, by decide, ?_⟩
    intro j hj
    interval_cases j <;> decide
  · apply (claim_C5.2.2.1 [⟨"a".toList, none, none⟩] ⟨"[5]".toList, none, none⟩).mpr
    exact Or.inr ⟨5, by decide, Or.inr (by decide)⟩

theorem filterMap_eq_map_getD {α β : Type} (f : α → Option β) (l : List α) (d : β)
    (h : ∀ x ∈ l, (f x).isSome) :
    l.filterMap f = l.map (fun x => (f x).getD d) := by
  induction l with
  | nil => rfl
  | cons x xs ih =>
    rw [List.filterMap_cons, List.map_cons]
    cases hf : f x with
    | none =>
      have := h x (List.mem_cons_self x xs)
      rw [hf] at this
      exact absurd this (by simp)
    | some b =>
      dsimp only
      simp only [Option.getD_some]
      rw [ih (fun y hy => h y (List.mem_cons_of_mem x hy))]

/-- Counterexample to C1 as stated: one pair is derived, but when its
verification resolves with `null` (the internal `catch` of
`verifyCitationSourcePair` after an exception), `if (result)` pushes
nothing, so the output list is empty — the pair is silently omitted rather
than converted to a not-found result. -/
theorem claim_C1_counterexample :
    (matchCitationsWithSources [cexCitation] [cexBib]).length = 1 ∧
    verifyAllCitations [cexCitation] [cexBib] cexRace = some [] := by
  constructor <;> rfl

/-- C1 amended: provided no pair's verification resolves with `null`, the
output has exactly one `VerificationResult` per pair in pair order; a
timeout rejection is caught and converted to a not-found record with
`found: false`, `confidence: 0` and a non-empty error-describing reason,
and remaining pairs are still processed.  (A `null` resolution — an
exception swallowed inside `verifyCitationSourcePair` — is silently
omitted instead.) -/
theorem claim_C1 (citations : List Citation) (bib : List BibliographyEntry)
    (race : Nat → Pair → RaceOutcome)
    (hne : matchCitationsWithSources citations bib ≠ [])
    (hnonull : ∀ i p, race i p ≠ .completed none) :
    ∃ rs, verifyAllCitations citations bib race = some rs ∧
      rs.length = (matchCitationsWithSources citations bib).length ∧
      (∀ (i : Nat) (h : i < rs.length)
        (h' : i < (matchCitationsWithSources citations bib).length),
        processPair (matchCitationsWithSources citations bib).length i
          ((matchCitationsWithSources citations bib)[i])
          (race i ((matchCitationsWithSources citations bib)[i])) = some rs[i]) ∧
      (∀ (pair : Pair) (i total : Nat),
        (errorRecord pair (timeoutMsg i total)).verification.foundFlag = false ∧
        (errorRecord pair (timeoutMsg i total)).verification.confidence = 0 ∧
        ∃ rsn, (errorRecord pair (timeoutMsg i total)).verification.reason =
          some rsn ∧ rsn ≠ []) := by
  set pairs := matchCitationsWithSources citations bib with hpairs
  have hsome : ∀ ip ∈ pairs.enum,
      (processPair pairs.length ip.1 ip.2 (race ip.1 ip.2)).isSome := by
    intro ip _
    cases hout : race ip.1 ip.2 with
    | completed r =>
      cases r with
      | none => exact absurd hout (hnonull ip.1 ip.2)
      | some v => simp [processPair]
    | timedOut => simp [processPair]
  have hemp : pairs.isEmpty = false := by
    cases hp : pairs with
    | nil => exact absurd hp hne
    | cons a as => rfl
  have hrs : verifyAllCitations citations bib race =
      some (pairs.enum.map (fun ip =>
        (processPair pairs.length ip.1 ip.2 (race ip.1 ip.2)).getD fallbackResult)) := by
    unfold verifyAllCitations
    rw [← hpairs, if_neg (by simp [hemp])]
    rw [filterMap_eq_map_getD _ _ fallbackResult hsome]
  refine ⟨_, hrs, ?_, ?_, ?_⟩
  · rw [List.length_map, List.enum_length]
  · intro i h h'
    have hi : i < pairs.enum.length := by rwa [List.enum_length]
    rw [List.getElem_map]
    rw [List.getElem_enum _ _ hi]
    dsimp only
    cases hx : processPair pairs.length i pairs[i] (race i pairs[i]) with
    | none =>
      have hs := hsome pairs.enum[i] (List.getElem_mem hi)
      rw [List.getElem_enum _ _ hi] at hs
      dsimp only at hs
      rw [hx] at hs
      exact absurd hs (by simp)
    | some v => rfl
  · intro pair i total
    refine ⟨rfl, rfl, strErrMark ++ timeoutMsg i total, rfl, ?_⟩
    intro hc
    have hlen := congrArg List.length hc
    rw [List.length_append] at hlen
    simp only [List.length_nil] at hlen
    have hl : 0 < strErrMark.length := by decide
    omega

/-- Witness for the amended C1: a concrete run in which the single pair
times out and is converted to an error record. -/
theorem claim_C1_witness :
    ∃ rs, verifyAllCitations [cexCitation] [cexBib]
        (fun _ _ => RaceOutcome.timedOut) = some rs ∧
      rs.length = (matchCitationsWithSources [cexCitation] [cexBib]).length := by
  obtain ⟨rs, h1, h2, _⟩ := claim_C1 [cexCitation] [cexBib]
    (fun _ _ => RaceOutcome.timedOut) (by decide)
    (fun i p h => RaceOutcome.noConfusion h)
  exact ⟨rs, h1, h2⟩

/-- C9: when the bibliography entry carries a truthy `library_match
.source_id` and the fetch throws or reports failure, the pair still yields
a result with `has_source_content: false` and a not-found verification
(`found: false`, `confidence: 0`, non-empty reason), and a batch in which
every pair completes yields exactly one result per pair — failures do not
abort the remaining pairs. -/
theorem claim_C9 (pair : Pair) (fetch : Str → FetchResponse) (sid : Str)
    (hsid : libSid pair.source = some sid)
    (hfail : fetchFails (fetch sid) = true) :
    ((verifyCitationSourcePair fetch pair).has_source_content = false ∧
     (verifyCitationSourcePair fetch pair).verification.foundFlag = false ∧
     (verifyCitationSourcePair fetch pair).verification.confidence = 0 ∧
     ∃ rsn, (verifyCitationSourcePair fetch pair).verification.reason = some rsn ∧
       rsn ≠ []) ∧
    (∀ (citations : List Citation) (bib : List BibliographyEntry),
      matchCitationsWithSources citations bib ≠ [] →
      verifyAllCitations citations bib
          (fun _ p => .completed (some (verifyCitationSourcePair fetch p))) =
        some ((matchCitationsWithSources citations bib).map
          (verifyCitationSourcePair fetch))) := by
  constructor
  · have hres : verifyCitationSourcePair fetch pair =
        { citation_number := pair.citation_number
          citation_text := getCitationText pair.citation pair.citation_number
          source_title := []
          source_content := some []
          source_id := some sid
          verification := .notFound strNoSourceAccess
          has_source_content := false } := by
      unfold verifyCitationSourcePair
      dsimp only
      rw [hsid]
      dsimp only
      cases hf : fetch sid with
      | ok success fc t =>
        cases success with
        | true => rw [hf] at hfail; simp [fetchFails] at hfail
        | false => rfl
      | err => rfl
    rw [hres]
    exact ⟨rfl, rfl, rfl, strNoSourceAccess, rfl, by decide⟩
  · intro citations bib hne
    unfold verifyAllCitations
    have hemp : (matchCitationsWithSources citations bib).isEmpty = false := by
      cases hp : matchCitationsWithSources citations bib with
      | nil => exact absurd hp hne
      | cons a as => rfl
    rw [if_neg (by simp [hemp])]
    congr 1
    have hfm : (matchCitationsWithSources citations bib).enum.filterMap
        (fun ip => processPair (matchCitationsWithSources citations bib).length
          ip.1 ip.2 ((fun _ p => RaceOutcome.completed
            (some (verifyCitationSourcePair fetch p))) ip.1 ip.2)) =
        (matchCitationsWithSources citations bib).enum.map
          (fun ip => verifyCitationSourcePair fetch ip.2) := by
      rw [filterMap_eq_map_getD _ _ fallbackResult]
      · rfl
      · intro ip _
        simp [processPair]
    have hcomp : (matchCitationsWithSources citations bib).enum.map
        (fun ip => verifyCitationSourcePair fetch ip.2) =
        ((matchCitationsWithSources citations bib).enum.map Prod.snd).map
          (verifyCitationSourcePair fetch) := by
      rw [List.map_map]
      rfl
    rw [hfm, hcomp, List.enum_map_snd]

theorem claim_C9_witness :
    (verifyCitationSourcePair (fun _ => FetchResponse.err)
      { citation := cexCitation, citation_number := 1,
        source := { text := "b".toList, online_metadata := none,
                    library_match := some { source_id := some "s1".toList } },
        source_text := "b".toList,
        source_metadata := some (Sum.inr { source_id := some "s1".toList }) }
      ).has_source_content = false := by
  have h := claim_C9
    { citation := cexCitation, citation_number := 1,
      source := { text := "b".toList, online_metadata := none,
                  library_match := some { source_id := some "s1".toList } },
      source_text := "b".toList,
      source_metadata := some (Sum.inr { source_id := some "s1".toList }) }
    (fun _ => FetchResponse.err) "s1".toList (by decide) rfl
  exact h.1.1

end CitationChecker
